import Mathlib

/-!
Verification of the USearch vector-search engine specification.

The repository ships only the Python test scripts for the engine
(`test_distances.py`, `test_tooling.py`, `bench_view_open.py`); the engine
itself (index, metrics, aggregator, clustering, matrix I/O) is not part of
the sources.  Every definition below is therefore modelled from the
specification text (`spec.md`), and each doc comment names the section it
follows.  Distances are represented as exact rationals; vectors of the
1-bit-packed kind are byte lists; machine floats are out of scope.
-/

namespace USearch

/-- Modelled from the spec (section 3, MetricKind): the missing engine's
enumeration of supported dissimilarity functions. -/
inductive MetricKind where
  | cos
  | l2sq
  | divergence
  | pearson
  | hamming
  | tanimoto
  | sorensen
  | nphdKind
  deriving DecidableEq

/-- Modelled from the spec (section 3, ScalarKind): the missing engine's
enumeration of accepted in-memory vector encodings. -/
inductive ScalarKind where
  | f32
  | f16
  | bf16
  | i8
  | b1
  deriving DecidableEq

/-- Modelled from the spec (section 3, KeyKind): a 64-bit unsigned integer
or a 128-bit identifier. -/
inductive KeyKind where
  | u64
  | uuid
  deriving DecidableEq

/-- Bit `i` of the natural number `x` (0 or 1). -/
def bitAt (x : Nat) (i : Nat) : Nat := x / 2 ^ i % 2

/-- Number of bit positions (among the 8 bits of a byte) where bytes `x`
and `y` differ. -/
def byteBitDiff (x y : Nat) : Nat :=
  ∑ i ∈ Finset.range 8, if bitAt x i = bitAt y i then 0 else 1

/-- Data byte `j` of a 1-bit-packed length-prefixed vector: byte 0 is the
length byte, so data byte `j` lives at position `1 + j`. -/
def dataByte (v : List Nat) (j : Nat) : Nat := v.getD (1 + j) 0

/-- Data bit `i` of a length-prefixed vector: bit `i % 8` of data byte
`i / 8`.  The length byte is never touched. -/
def dataBit (v : List Nat) (i : Nat) : Nat := bitAt (dataByte v (i / 8)) (i % 8)

/-- Modelled from the spec (section 4.1, NPHD): the missing engine's
normalized prefix Hamming distance over 1-bit-packed vectors.  Byte 0 is a
length byte `L`; the distance is the number of differing bits across the
`min (L_a) (L_b)` common data bytes divided by `8 * min (L_a) (L_b)`, and 0
when that minimum is 0.  The length byte is excluded from the comparison. -/
def nphd (a b : List Nat) : ℚ :=
  let m := min (a.headD 0) (b.headD 0)
  if m = 0 then 0
  else ((∑ j ∈ Finset.range m, byteBitDiff (dataByte a j) (dataByte b j) : ℕ) : ℚ) / (8 * m)

/-- Helper from `test_distances.py` (`_make_nphd_vector`): a length byte
followed by the data bytes, zero-padded to `ndimBytes` bytes in total. -/
def makeNphdVector (lengthByte : Nat) (dataBytes : List Nat) (ndimBytes : Nat) : List Nat :=
  lengthByte :: (dataBytes ++ List.replicate (ndimBytes - 1 - dataBytes.length) 0)

/-- Number of bit positions, among the first `8 * m` data bits, where the
two vectors differ.  This is the claim-side reading of "number of differing
bits across the common data bytes". -/
def differingDataBits (a b : List Nat) (m : Nat) : Nat :=
  ∑ i ∈ Finset.range (8 * m), if dataBit a i = dataBit b i then 0 else 1

theorem differingDataBits_eq_byte_sum (a b : List Nat) (m : Nat) :
    differingDataBits a b m = ∑ j ∈ Finset.range m, byteBitDiff (dataByte a j) (dataByte b j) := by
  induction m with
  | zero => simp [differingDataBits]
  | succ m ih =>
    have h8 : 8 * (m + 1) = 8 * m + 8 := by ring
    unfold differingDataBits at *
    rw [h8, Finset.sum_range_succ, Finset.sum_range_succ, Finset.sum_range_succ,
      Finset.sum_range_succ, Finset.sum_range_succ, Finset.sum_range_succ,
      Finset.sum_range_succ, Finset.sum_range_succ, ih, Finset.sum_range_succ]
    have hbit : ∀ j, j < 8 → (dataBit a (8 * m + j) = bitAt (dataByte a m) j ∧
        dataBit b (8 * m + j) = bitAt (dataByte b m) j) := by
      intro j hj
      have hdiv : (8 * m + j) / 8 = m := by omega
      have hmod : (8 * m + j) % 8 = j := by omega
      constructor <;> simp [dataBit, hdiv, hmod]
    have h0 := hbit 0 (by norm_num)
    rw [Nat.add_zero] at h0
    have h1 := hbit 1 (by norm_num)
    have h2 := hbit 2 (by norm_num)
    have h3 := hbit 3 (by norm_num)
    have h4 := hbit 4 (by norm_num)
    have h5 := hbit 5 (by norm_num)
    have h6 := hbit 6 (by norm_num)
    have h7 := hbit 7 (by norm_num)
    rw [h0.1, h0.2, h1.1, h1.2, h2.1, h2.2, h3.1, h3.2, h4.1, h4.2, h5.1, h5.2,
      h6.1, h6.2, h7.1, h7.2]
    simp [byteBitDiff, Finset.sum_range_succ]
    ring

/-- C1: for every pair of 1-bit-packed vectors under the NPHD metric, the
distance equals the number of differing data bits across the
`min (L_a) (L_b)` common data bytes divided by `8 * min (L_a) (L_b)`,
where `L_a` and `L_b` are the length bytes (byte 0); the length byte is
excluded from the bit comparison (only data bytes participate), and when
`min (L_a) (L_b) = 0` the distance is 0.  In particular for length 2 and
data bytes `[0xAA, 0xCC]` against `[0xAA, 0xCF]` the distance is 0.125. -/
theorem nphd_matches_bitwise_formula :
    (∀ a b : List Nat,
      nphd a b =
        if min (a.headD 0) (b.headD 0) = 0 then 0
        else (differingDataBits a b (min (a.headD 0) (b.headD 0)) : ℚ) /
          (8 * min (a.headD 0) (b.headD 0))) ∧
    nphd (makeNphdVector 2 [0xAA, 0xCC] 33) (makeNphdVector 2 [0xAA, 0xCF] 33) = 0.125 := by
  constructor
  · intro a b
    rw [nphd, differingDataBits_eq_byte_sum]
  · norm_num [nphd, makeNphdVector, byteBitDiff, bitAt, dataByte, Finset.sum_range_succ]

/-- Ranking relation on `(key, distance)` search results: ascending
distance, ties broken by ascending key (spec, section 4.3). -/
def hitLE (a b : Nat × ℚ) : Prop := a.2 < b.2 ∨ (a.2 = b.2 ∧ a.1 ≤ b.1)

instance : DecidableRel hitLE := fun _ _ => inferInstanceAs (Decidable (_ ∨ _))

instance : IsTotal (Nat × ℚ) hitLE where
  total a b := by
    rcases lt_trichotomy a.2 b.2 with h | h | h
    · exact Or.inl (Or.inl h)
    · rcases Nat.le_total a.1 b.1 with hk | hk
      · exact Or.inl (Or.inr ⟨h, hk⟩)
      · exact Or.inr (Or.inr ⟨h.symm, hk⟩)
    · exact Or.inr (Or.inl h)

instance : IsTrans (Nat × ℚ) hitLE where
  trans a b c hab hbc := by
    rcases hab with h1 | ⟨h1, k1⟩ <;> rcases hbc with h2 | ⟨h2, k2⟩
    · exact Or.inl (h1.trans h2)
    · exact Or.inl (h2 ▸ h1)
    · exact Or.inl (h1 ▸ h2)
    · exact Or.inr ⟨h1.trans h2, k1.trans k2⟩

/-- Modelled from the spec (section 4.3, `search`): a single shard's search
returns the `k` closest stored entries to the query, ordered by ascending
distance with ties broken by ascending key.  `d` is the configured
distance function; entries pair keys with stored vectors. -/
def searchEntries (d : List Nat → List Nat → ℚ) (entries : List (Nat × List Nat))
    (q : List Nat) (k : Nat) : List (Nat × ℚ) :=
  (List.insertionSort hitLE (entries.map (fun e => (e.1, d q e.2)))).take k

/-- Target vector of the NPHD search scenario (`test_nphd_search`). -/
def nphdTarget : List Nat := makeNphdVector 4 [0xAA, 0xBB, 0xCC, 0xDD] 33

/-- Vector differing from the target in 2 bits (`test_nphd_search`). -/
def nphdClose : List Nat := makeNphdVector 4 [0xAA, 0xBB, 0xCC, 0xDE] 33

/-- Vector differing from the target in many bits (`test_nphd_search`). -/
def nphdFar : List Nat := makeNphdVector 4 [0x55, 0x44, 0x33, 0x22] 33

/-- C2: in a shard with `ndim = 264` (33 bytes), NPHD metric and binary
scalars holding the target `T` under key 0, a 2-bit-different vector under
key 1 and a many-bit-different vector under key 2, `search(T, 3)` returns
key 0 first at distance 0, key 1 second and key 2 third, and the second
distance is strictly below the third. -/
theorem nphd_search_scenario :
    searchEntries nphd [(0, nphdTarget), (1, nphdClose), (2, nphdFar)] nphdTarget 3 =
      [(0, 0), (1, 1 / 16), (2, 1)] ∧ (1 / 16 : ℚ) < 1 := by
  have ht : nphd nphdTarget nphdTarget = 0 := by
    norm_num [nphd, nphdTarget, makeNphdVector, byteBitDiff, bitAt, dataByte,
      Finset.sum_range_succ]
  have hc : nphd nphdTarget nphdClose = 1 / 16 := by
    norm_num [nphd, nphdTarget, nphdClose, makeNphdVector, byteBitDiff, bitAt, dataByte,
      Finset.sum_range_succ]
  have hf : nphd nphdTarget nphdFar = 1 := by
    norm_num [nphd, nphdTarget, nphdFar, makeNphdVector, byteBitDiff, bitAt, dataByte,
      Finset.sum_range_succ]
  refine ⟨?_, by norm_num⟩
  simp only [searchEntries, List.map_cons, List.map_nil, ht, hc, hf]
  norm_num [List.insertionSort, List.orderedInsert, hitLE]

/-- Modelled from the spec (section 3, Shard): one self-contained index
instance owning its four fixed parameters and its stored entries
(key plus encoded vector bytes). -/
structure Shard where
  ndim : Nat
  metric : MetricKind
  scalar : ScalarKind
  keyKind : KeyKind
  entries : List (Nat × List Nat)
  deriving DecidableEq

/-- Enum id of a metric kind in the binary container header (spec,
section 6). -/
def metricTag : MetricKind → Nat
  | .cos => 0
  | .l2sq => 1
  | .divergence => 2
  | .pearson => 3
  | .hamming => 4
  | .tanimoto => 5
  | .sorensen => 6
  | .nphdKind => 7

/-- Decoder for the metric enum id. -/
def decodeMetricTag : Nat → Option MetricKind
  | 0 => some .cos
  | 1 => some .l2sq
  | 2 => some .divergence
  | 3 => some .pearson
  | 4 => some .hamming
  | 5 => some .tanimoto
  | 6 => some .sorensen
  | 7 => some .nphdKind
  | _ => none

/-- Enum id of a scalar kind in the binary container header. -/
def scalarTag : ScalarKind → Nat
  | .f32 => 0
  | .f16 => 1
  | .bf16 => 2
  | .i8 => 3
  | .b1 => 4

/-- Decoder for the scalar enum id. -/
def decodeScalarTag : Nat → Option ScalarKind
  | 0 => some .f32
  | 1 => some .f16
  | 2 => some .bf16
  | 3 => some .i8
  | 4 => some .b1
  | _ => none

/-- Enum id of a key kind in the binary container header. -/
def keyTag : KeyKind → Nat
  | .u64 => 0
  | .uuid => 1

/-- Decoder for the key enum id. -/
def decodeKeyTag : Nat → Option KeyKind
  | 0 => some .u64
  | 1 => some .uuid
  | _ => none

theorem decodeMetricTag_metricTag (m : MetricKind) : decodeMetricTag (metricTag m) = some m := by
  cases m <;> rfl

theorem decodeScalarTag_scalarTag (s : ScalarKind) : decodeScalarTag (scalarTag s) = some s := by
  cases s <;> rfl

theorem decodeKeyTag_keyTag (k : KeyKind) : decodeKeyTag (keyTag k) = some k := by
  cases k <;> rfl

/-- Per-vector encoded width in bytes, determined by scalar kind and
dimensionality (spec, section 6, vector section). -/
def bytesPerVector (s : ScalarKind) (ndim : Nat) : Nat :=
  match s with
  | .f32 => 4 * ndim
  | .f16 => 2 * ndim
  | .bf16 => 2 * ndim
  | .i8 => ndim
  | .b1 => (ndim + 7) / 8

/-- Magic marker of the self-describing container file. -/
def magicNumber : Nat := 0x75736561

/-- Version of the container format. -/
def formatVersion : Nat := 1

/-- Every stored vector has the encoded width dictated by the shard's
scalar kind and dimensionality. -/
def Shard.wf (sh : Shard) : Prop :=
  ∀ e ∈ sh.entries, e.2.length = bytesPerVector sh.scalar sh.ndim

/-- Modelled from the spec (sections 4.4 and 6, `save`): serialize a shard
into one self-describing container: a header carrying magic, version,
`ndim`, the three enum ids and the entry count, followed by the entries as
key plus encoded vector bytes. -/
def saveShard (sh : Shard) : List Nat :=
  [magicNumber, formatVersion, sh.ndim, metricTag sh.metric, scalarTag sh.scalar,
    keyTag sh.keyKind, sh.entries.length] ++ (sh.entries.map (fun e => e.1 :: e.2)).flatten

/-- Parse `count` entries of vector width `w` from the body of a container
file, failing on truncated or oversized bodies. -/
def parseEntries (w : Nat) : Nat → List Nat → Option (List (Nat × List Nat))
  | 0, [] => some []
  | 0, _ :: _ => none
  | _ + 1, [] => none
  | count + 1, key :: rest =>
    if w ≤ rest.length then
      (parseEntries w count (rest.drop w)).map (fun es => (key, rest.take w) :: es)
    else none

/-- Modelled from the spec (section 4.4, `restore`): fully load a
container file back into an owned shard, recovering all four fixed
parameters from the header alone. -/
def restoreShard (data : List Nat) : Option Shard :=
  match data with
  | magic :: version :: ndim :: mt :: st :: kt :: count :: rest =>
    if magic = magicNumber ∧ version = formatVersion then
      match decodeMetricTag mt, decodeScalarTag st, decodeKeyTag kt with
      | some m, some s, some k =>
        (parseEntries (bytesPerVector s ndim) count rest).map
          (fun es => ⟨ndim, m, s, k, es⟩)
      | _, _, _ => none
    else none
  | _ => none

/-- Stored vector of a given key, if present (spec, section 6,
`pairwiseDistance` collaborator surface). -/
def Shard.lookupVector (sh : Shard) (key : Nat) : Option (List Nat) :=
  (sh.entries.find? (fun e => e.1 == key)).map (fun e => e.2)

/-- Pairwise distance between two stored keys under a distance function
`d`, `none` when either key is absent. -/
def pairwiseDistance (d : List Nat → List Nat → ℚ) (sh : Shard) (k1 k2 : Nat) : Option ℚ :=
  match sh.lookupVector k1, sh.lookupVector k2 with
  | some v, some w => some (d v w)
  | _, _ => none

theorem parseEntries_roundtrip (w : Nat) (es : List (Nat × List Nat))
    (h : ∀ e ∈ es, e.2.length = w) :
    parseEntries w es.length ((es.map (fun e => e.1 :: e.2)).flatten) = some es := by
  induction es with
  | nil => rfl
  | cons e rest ih =>
    have he : e.2.length = w := h e (List.mem_cons_self e rest)
    have hrest : ∀ x ∈ rest, x.2.length = w := fun x hx => h x (List.mem_cons_of_mem e hx)
    simp only [List.map_cons, List.flatten, List.length_cons, List.cons_append]
    have hlen : w ≤ (e.2 ++ (rest.map (fun x => x.1 :: x.2)).flatten).length := by
      rw [List.length_append, he]
      omega
    rw [parseEntries, if_pos hlen]
    have htake : (e.2 ++ (rest.map (fun x => x.1 :: x.2)).flatten).take w = e.2 := by
      rw [← he, List.take_left]
    have hdrop : (e.2 ++ (rest.map (fun x => x.1 :: x.2)).flatten).drop w =
        (rest.map (fun x => x.1 :: x.2)).flatten := by
      rw [← he, List.drop_left]
    rw [htake, hdrop, ih hrest]
    rfl

/-- C3: saving a well-formed shard and restoring from the saved bytes
yields a shard with the same metric kind, scalar kind and key kind, and
the same pairwise distance between every pair of stored keys under every
distance function (the round-trip is in fact exact). -/
theorem save_restore_roundtrip (sh : Shard) (hwf : sh.wf) :
    ∃ sh', restoreShard (saveShard sh) = some sh' ∧
      sh'.metric = sh.metric ∧ sh'.scalar = sh.scalar ∧ sh'.keyKind = sh.keyKind ∧
      ∀ (d : List Nat → List Nat → ℚ) (k1 k2 : Nat),
        pairwiseDistance d sh' k1 k2 = pairwiseDistance d sh k1 k2 := by
  refine ⟨sh, ?_, rfl, rfl, rfl, fun _ _ _ => rfl⟩
  show restoreShard (saveShard sh) = some sh
  have hbody := parseEntries_roundtrip (bytesPerVector sh.scalar sh.ndim) sh.entries hwf
  simp only [saveShard, List.cons_append, List.nil_append, restoreShard, and_self, if_true,
    decodeMetricTag_metricTag, decodeScalarTag_scalarTag, decodeKeyTag_keyTag, hbody]
  rfl

/-- Witness for C3 at a concrete one-entry NPHD shard. -/
theorem save_restore_roundtrip_witness :
    (Shard.mk 264 .nphdKind .b1 .u64 [(0, nphdTarget)]).wf ∧
    ∃ sh', restoreShard (saveShard (Shard.mk 264 .nphdKind .b1 .u64 [(0, nphdTarget)])) =
        some sh' ∧
      sh'.metric = .nphdKind ∧ sh'.scalar = .b1 ∧ sh'.keyKind = .u64 ∧
      ∀ (d : List Nat → List Nat → ℚ) (k1 k2 : Nat),
        pairwiseDistance d sh' k1 k2 =
          pairwiseDistance d (Shard.mk 264 .nphdKind .b1 .u64 [(0, nphdTarget)]) k1 k2 := by
  have hwf : (Shard.mk 264 .nphdKind .b1 .u64 [(0, nphdTarget)]).wf := by
    intro e he
    simp only [Shard.wf, List.mem_singleton] at he
    subst he
    rfl
  exact ⟨hwf, save_restore_roundtrip _ hwf⟩

/-- Header metadata of a container file (spec, section 4.4, `metadata`). -/
structure IndexMetadata where
  ndim : Nat
  metric : MetricKind
  scalar : ScalarKind
  keyKind : KeyKind
  count : Nat
  deriving DecidableEq

/-- Modelled from the spec (section 4.4, `metadata`): read only the header
of a container file, never materializing vectors or graph. -/
def metadataOf (data : List Nat) : Option IndexMetadata :=
  match data with
  | magic :: version :: ndim :: mt :: st :: kt :: count :: _ =>
    if magic = magicNumber ∧ version = formatVersion then
      match decodeMetricTag mt, decodeScalarTag st, decodeKeyTag kt with
      | some m, some s, some k => some ⟨ndim, m, s, k, count⟩
      | _, _, _ => none
    else none
  | _ => none

/-- Error taxonomy of the aggregation layer (spec, section 7). -/
inductive UsError where
  | keyKindMismatch
  | corruptFile
  deriving DecidableEq

/-- Modelled from the spec (sections 3 and 4.5, AggregateCollection): a
collection of shards sharing one key kind; the key kind is `none` until a
first shard fixes it. -/
structure Indexes where
  keyKind : Option KeyKind
  shards : List Shard
  deriving DecidableEq

/-- Empty, valid aggregate collection. -/
def Indexes.empty : Indexes := ⟨none, []⟩

/-- Size of an aggregate collection: total number of entries across its
merged shards. -/
def Indexes.size (xs : Indexes) : Nat := (xs.shards.map (fun sh => sh.entries.length)).sum

/-- Modelled from the spec (section 4.5, `merge`): add an in-memory shard;
adopt its key kind when none is set yet, and fail with `keyKindMismatch`
when a different key kind is already set. -/
def Indexes.merge (xs : Indexes) (sh : Shard) : Except UsError Indexes :=
  match xs.keyKind with
  | none => .ok ⟨some sh.keyKind, xs.shards ++ [sh]⟩
  | some kk =>
    if sh.keyKind = kk then .ok ⟨some kk, xs.shards ++ [sh]⟩
    else .error .keyKindMismatch

/-- Modelled from the spec (section 4.5, `mergePath`): read only the
header via `metadata`, check key-kind compatibility the same way as
`merge`, then attach the shard from the file. -/
def Indexes.mergePath (xs : Indexes) (file : List Nat) : Except UsError Indexes :=
  match metadataOf file with
  | none => .error .corruptFile
  | some md =>
    match xs.keyKind with
    | none =>
      match restoreShard file with
      | none => .error .corruptFile
      | some sh => .ok ⟨some md.keyKind, xs.shards ++ [sh]⟩
    | some kk =>
      if md.keyKind = kk then
        match restoreShard file with
        | none => .error .corruptFile
        | some sh => .ok ⟨some kk, xs.shards ++ [sh]⟩
      else .error .keyKindMismatch

/-- Merge a list of in-memory shards one by one. -/
def Indexes.mergeAll (xs : Indexes) (shs : List Shard) : Except UsError Indexes :=
  match shs with
  | [] => .ok xs
  | sh :: rest => do Indexes.mergeAll (← xs.merge sh) rest

/-- Validation pass of the path constructor: check that the headers of all
files carry one homogeneous key kind (also against a declared one) before
anything is attached. -/
def validateKeyKinds (declared : Option KeyKind) (files : List (List Nat)) :
    Except UsError Unit :=
  match files with
  | [] => .ok ()
  | f :: rest =>
    match metadataOf f with
    | none => .error .corruptFile
    | some md =>
      match declared with
      | none => validateKeyKinds (some md.keyKind) rest
      | some kk =>
        if md.keyKind = kk then validateKeyKinds (some kk) rest
        else .error .keyKindMismatch

/-- Modelled from the spec (section 4.5): constructing an aggregate from a
set of paths validates key-kind homogeneity across all headers before any
shard is attached, then attaches the shards in order. -/
def Indexes.fromPaths (declared : Option KeyKind) (files : List (List Nat)) :
    Except UsError Indexes :=
  match validateKeyKinds declared files with
  | .error e => .error e
  | .ok _ => files.foldlM (fun xs f => xs.mergePath f) ⟨declared, []⟩

theorem validateKeyKinds_ok_all_eq (files : List (List Nat)) (kk : KeyKind)
    (hok : validateKeyKinds (some kk) files = .ok ()) :
    ∀ f ∈ files, ∀ md, metadataOf f = some md → md.keyKind = kk := by
  induction files generalizing kk with
  | nil => intro f hf; simp at hf
  | cons f rest ih =>
    intro g hg md hmd
    rw [validateKeyKinds] at hok
    cases hmdf : metadataOf f with
    | none => rw [hmdf] at hok; cases hok
    | some mdf =>
      rw [hmdf] at hok
      have hok' : (if mdf.keyKind = kk then validateKeyKinds (some kk) rest
          else Except.error UsError.keyKindMismatch) = Except.ok () := hok
      by_cases heq : mdf.keyKind = kk
      · rw [if_pos heq] at hok'
        rcases List.mem_cons.mp hg with rfl | hg'
        · rw [hmdf] at hmd
          cases hmd
          exact heq
        · exact ih kk hok' g hg' md hmd
      · rw [if_neg heq] at hok'
        cases hok'

theorem validateKeyKinds_ok_or_mismatch (declared : Option KeyKind) (files : List (List Nat))
    (hvalid : ∀ f ∈ files, ∃ md, metadataOf f = some md) :
    validateKeyKinds declared files = .ok () ∨
      validateKeyKinds declared files = .error .keyKindMismatch := by
  induction files generalizing declared with
  | nil => exact Or.inl rfl
  | cons f rest ih =>
    obtain ⟨md, hmd⟩ := hvalid f (List.mem_cons_self f rest)
    have hvalid' : ∀ g ∈ rest, ∃ md', metadataOf g = some md' :=
      fun g hg => hvalid g (List.mem_cons_of_mem f hg)
    rw [validateKeyKinds, hmd]
    cases declared with
    | none =>
      show validateKeyKinds (some md.keyKind) rest = Except.ok () ∨
        validateKeyKinds (some md.keyKind) rest = Except.error UsError.keyKindMismatch
      exact ih (some md.keyKind) hvalid'
    | some kk =>
      show (if md.keyKind = kk then validateKeyKinds (some kk) rest
          else Except.error UsError.keyKindMismatch) = Except.ok () ∨
        (if md.keyKind = kk then validateKeyKinds (some kk) rest
          else Except.error UsError.keyKindMismatch) = Except.error UsError.keyKindMismatch
      by_cases heq : md.keyKind = kk
      · rw [if_pos heq]
        exact ih (some kk) hvalid'
      · rw [if_neg heq]
        exact Or.inr rfl

/-- C4: merging a shard whose key kind differs from the aggregate's
already-set key kind fails with `keyKindMismatch` (in memory and by path)
and produces no modified aggregate, and constructing from a set of paths
whose headers carry heterogeneous key kinds fails with `keyKindMismatch`
before any shard is attached. -/
theorem keyKind_mismatch_rejected :
    (∀ (xs : Indexes) (kk : KeyKind) (sh : Shard), xs.keyKind = some kk →
      sh.keyKind ≠ kk → xs.merge sh = .error .keyKindMismatch) ∧
    (∀ (xs : Indexes) (kk : KeyKind) (file : List Nat) (md : IndexMetadata),
      xs.keyKind = some kk → metadataOf file = some md → md.keyKind ≠ kk →
      xs.mergePath file = .error .keyKindMismatch) ∧
    (∀ (files : List (List Nat)) (f g : List Nat) (mdf mdg : IndexMetadata),
      (∀ p ∈ files, ∃ md, metadataOf p = some md) →
      f ∈ files → g ∈ files → metadataOf f = some mdf → metadataOf g = some mdg →
      mdf.keyKind ≠ mdg.keyKind →
      Indexes.fromPaths none files = .error .keyKindMismatch) := by
  refine ⟨?_, ?_, ?_⟩
  · intro xs kk sh hxs hne
    simp only [Indexes.merge, hxs, if_neg hne]
  · intro xs kk file md hxs hmd hne
    simp only [Indexes.mergePath, hmd, hxs, if_neg hne]
  · intro files f g mdf mdg hvalid hf hg hmdf hmdg hne
    rw [Indexes.fromPaths]
    rcases validateKeyKinds_ok_or_mismatch none files hvalid with hok | herr
    · exfalso
      cases files with
      | nil => simp at hf
      | cons p rest =>
        rw [validateKeyKinds] at hok
        obtain ⟨mdp, hmdp⟩ := hvalid p (List.mem_cons_self p rest)
        rw [hmdp] at hok
        have hall := validateKeyKinds_ok_all_eq rest mdp.keyKind hok
        have hfk : mdf.keyKind = mdp.keyKind := by
          rcases List.mem_cons.mp hf with rfl | hf'
          · rw [hmdp] at hmdf; cases hmdf; rfl
          · exact hall f hf' mdf hmdf
        have hgk : mdg.keyKind = mdp.keyKind := by
          rcases List.mem_cons.mp hg with rfl | hg'
          · rw [hmdp] at hmdg; cases hmdg; rfl
          · exact hall g hg' mdg hmdg
        exact hne (hfk.trans hgk.symm)
    · rw [herr]

/-- Witness for C4: a u64 aggregate rejects a uuid shard, a u64 aggregate
rejects a uuid path, and a mixed pair of paths is rejected, all with
`keyKindMismatch`. -/
theorem keyKind_mismatch_rejected_witness :
    (Indexes.mk (some .u64) []).merge (Shard.mk 10 .cos .f32 .uuid []) =
        .error .keyKindMismatch ∧
    (Indexes.mk (some .u64) []).mergePath (saveShard (Shard.mk 10 .cos .f32 .uuid [])) =
        .error .keyKindMismatch ∧
    Indexes.fromPaths none
        [saveShard (Shard.mk 10 .cos .f32 .uuid []), saveShard (Shard.mk 10 .cos .f32 .u64 [])] =
      .error .keyKindMismatch := by
  refine ⟨?_, ?_, ?_⟩
  · exact keyKind_mismatch_rejected.1 _ .u64 _ rfl (by decide)
  · exact keyKind_mismatch_rejected.2.1 _ .u64 _
      (IndexMetadata.mk 10 .cos .f32 .uuid 0) rfl (by decide) (by decide)
  · exact keyKind_mismatch_rejected.2.2 _
      (saveShard (Shard.mk 10 .cos .f32 .uuid []))
      (saveShard (Shard.mk 10 .cos .f32 .u64 []))
      (IndexMetadata.mk 10 .cos .f32 .uuid 0) (IndexMetadata.mk 10 .cos .f32 .u64 0)
      (by
        intro p hp
        rcases List.mem_cons.mp hp with rfl | hp'
        · exact ⟨IndexMetadata.mk 10 .cos .f32 .uuid 0, rfl⟩
        rcases List.mem_cons.mp hp' with rfl | hp''
        · exact ⟨IndexMetadata.mk 10 .cos .f32 .u64 0, rfl⟩
        simp at hp'')
      (by decide) (by decide) (by decide) (by decide) (by decide)

theorem merge_ok_size (xs xs' : Indexes) (sh : Shard) (h : xs.merge sh = .ok xs') :
    xs'.size = xs.size + sh.entries.length := by
  obtain ⟨okk, shards⟩ := xs
  cases okk with
  | none =>
    simp only [Indexes.merge] at h
    cases h
    simp [Indexes.size, List.map_append, List.sum_append]
  | some kk =>
    simp only [Indexes.merge] at h
    split at h
    · cases h
      simp [Indexes.size, List.map_append, List.sum_append]
    · cases h

theorem mergeAll_ok_size (shs : List Shard) :
    ∀ (xs xs' : Indexes), Indexes.mergeAll xs shs = .ok xs' →
      xs'.size = xs.size + (shs.map (fun sh => sh.entries.length)).sum := by
  induction shs with
  | nil =>
    intro xs xs' h
    rw [Indexes.mergeAll] at h
    cases h
    simp
  | cons sh rest ih =>
    intro xs xs' h
    rw [Indexes.mergeAll] at h
    cases hm : xs.merge sh with
    | error e =>
      rw [hm] at h
      cases h
    | ok y =>
      rw [hm] at h
      have h' : Indexes.mergeAll y rest = .ok xs' := h
      have hrest := ih y xs' h'
      have hy := merge_ok_size xs y sh hm
      simp only [List.map_cons, List.sum_cons]
      omega

/-- C5: an aggregate's size is the sum of the entry counts of its merged
shards: a successful merge grows the size by exactly the incoming shard's
entry count, merging a list of shards into the empty aggregate yields the
sum of their entry counts, and constructing from an empty path sequence
yields the empty, zero-size collection. -/
theorem aggregate_size_is_sum :
    (∀ (xs xs' : Indexes) (sh : Shard), xs.merge sh = .ok xs' →
      xs'.size = xs.size + sh.entries.length) ∧
    (∀ (shs : List Shard) (xs : Indexes), Indexes.mergeAll Indexes.empty shs = .ok xs →
      xs.size = (shs.map (fun sh => sh.entries.length)).sum) ∧
    Indexes.fromPaths none [] = .ok Indexes.empty ∧ Indexes.empty.size = 0 := by
  refine ⟨merge_ok_size, ?_, rfl, rfl⟩
  intro shs xs h
  have := mergeAll_ok_size shs Indexes.empty xs h
  simpa [Indexes.size, Indexes.empty] using this

/-- Witness for C5 at two concrete one-entry u64 shards. -/
theorem aggregate_size_is_sum_witness :
    Indexes.empty.merge (Shard.mk 10 .cos .f32 .u64 [(42, [7])]) =
      .ok (Indexes.mk (some .u64) [Shard.mk 10 .cos .f32 .u64 [(42, [7])]]) ∧
    (Indexes.mk (some .u64) [Shard.mk 10 .cos .f32 .u64 [(42, [7])]]).size =
      Indexes.empty.size + 1 ∧
    Indexes.mergeAll Indexes.empty
        [Shard.mk 10 .cos .f32 .u64 [(42, [7])], Shard.mk 10 .cos .f32 .u64 [(43, [8])]] =
      .ok (Indexes.mk (some .u64)
        [Shard.mk 10 .cos .f32 .u64 [(42, [7])], Shard.mk 10 .cos .f32 .u64 [(43, [8])]]) ∧
    (Indexes.mk (some .u64)
        [Shard.mk 10 .cos .f32 .u64 [(42, [7])], Shard.mk 10 .cos .f32 .u64 [(43, [8])]]).size = 2 := by
  refine ⟨rfl, ?_, rfl, ?_⟩
  · exact aggregate_size_is_sum.1 Indexes.empty
      (Indexes.mk (some .u64) [Shard.mk 10 .cos .f32 .u64 [(42, [7])]])
      (Shard.mk 10 .cos .f32 .u64 [(42, [7])]) rfl
  · exact aggregate_size_is_sum.2.1
      [Shard.mk 10 .cos .f32 .u64 [(42, [7])], Shard.mk 10 .cos .f32 .u64 [(43, [8])]]
      (Indexes.mk (some .u64)
        [Shard.mk 10 .cos .f32 .u64 [(42, [7])], Shard.mk 10 .cos .f32 .u64 [(43, [8])]]) rfl

/-- Result item of an aggregate search: owning shard position, stored key
and distance to the query. -/
structure Hit where
  shardIdx : Nat
  key : Nat
  dist : ℚ
  deriving DecidableEq

/-- Merge order of aggregate search results (spec, section 4.5): ascending
distance, ties broken by shard order and then by key. -/
def hitOrder (a b : Hit) : Prop :=
  a.dist < b.dist ∨ (a.dist = b.dist ∧
    (a.shardIdx < b.shardIdx ∨ (a.shardIdx = b.shardIdx ∧ a.key ≤ b.key)))

instance : DecidableRel hitOrder := fun _ _ => inferInstanceAs (Decidable (_ ∨ _))

instance : IsTotal Hit hitOrder where
  total a b := by
    rcases lt_trichotomy a.dist b.dist with h | h | h
    · exact Or.inl (Or.inl h)
    · rcases lt_trichotomy a.shardIdx b.shardIdx with hs | hs | hs
      · exact Or.inl (Or.inr ⟨h, Or.inl hs⟩)
      · rcases Nat.le_total a.key b.key with hk | hk
        · exact Or.inl (Or.inr ⟨h, Or.inr ⟨hs, hk⟩⟩)
        · exact Or.inr (Or.inr ⟨h.symm, Or.inr ⟨hs.symm, hk⟩⟩)
      · exact Or.inr (Or.inr ⟨h.symm, Or.inl hs⟩)
    · exact Or.inr (Or.inl h)

instance : IsTrans Hit hitOrder where
  trans a b c hab hbc := by
    rcases hab with h1 | ⟨h1, t1⟩ <;> rcases hbc with h2 | ⟨h2, t2⟩
    · exact Or.inl (h1.trans h2)
    · exact Or.inl (h2 ▸ h1)
    · exact Or.inl (h1 ▸ h2)
    · refine Or.inr ⟨h1.trans h2, ?_⟩
      rcases t1 with s1 | ⟨s1, k1⟩ <;> rcases t2 with s2 | ⟨s2, k2⟩
      · exact Or.inl (s1.trans s2)
      · exact Or.inl (s2 ▸ s1)
      · exact Or.inl (s1 ▸ s2)
      · exact Or.inr ⟨s1.trans s2, k1.trans k2⟩

/-- Per-shard fan-out of an aggregate search (spec, section 4.5): the
shard at position `i` contributes its own top-`k` hits. -/
def shardHits (d : List Nat → List Nat → ℚ) (i : Nat) (sh : Shard) (q : List Nat)
    (k : Nat) : List Hit :=
  (List.insertionSort hitOrder (sh.entries.map (fun e => ⟨i, e.1, d q e.2⟩))).take k

/-- Fan a query out to every shard in order, tagging hits with shard
positions. -/
def fanout (d : List Nat → List Nat → ℚ) (q : List Nat) (k : Nat) :
    Nat → List Shard → List Hit
  | _, [] => []
  | i, sh :: rest => shardHits d i sh q k ++ fanout d q k (i + 1) rest

/-- Modelled from the spec (section 4.5, `search`): fan the query out to
every owned shard and merge the per-shard top-`k` lists into one global
top-`k` by ascending distance, ties broken by shard order then key. -/
def Indexes.searchOne (xs : Indexes) (d : List Nat → List Nat → ℚ) (q : List Nat)
    (k : Nat) : List Hit :=
  (List.insertionSort hitOrder (fanout d q k 0 xs.shards)).take k

/-- Modelled from the spec (section 4.5): a batch of queries yields one
merged result list per query. -/
def Indexes.searchBatch (xs : Indexes) (d : List Nat → List Nat → ℚ)
    (qs : List (List Nat)) (k : Nat) : List (List Hit) :=
  qs.map (fun q => xs.searchOne d q k)

theorem shardHits_length (d : List Nat → List Nat → ℚ) (i : Nat) (sh : Shard)
    (q : List Nat) (k : Nat) :
    (shardHits d i sh q k).length = min k sh.entries.length := by
  simp [shardHits, List.length_take, List.length_insertionSort]

theorem fanout_length (d : List Nat → List Nat → ℚ) (q : List Nat) (k : Nat) :
    ∀ (i : Nat) (shs : List Shard),
      (fanout d q k i shs).length = ((shs.map (fun sh => min k sh.entries.length)).sum) := by
  intro i shs
  induction shs generalizing i with
  | nil => rfl
  | cons sh rest ih =>
    simp [fanout, List.length_append, shardHits_length, ih]

theorem min_sum_min (k : Nat) (l : List Nat) :
    min k ((l.map (fun n => min k n)).sum) = min k l.sum := by
  induction l with
  | nil => simp
  | cons n t ih =>
    simp only [List.map_cons, List.sum_cons]
    omega

theorem searchOne_length (xs : Indexes) (d : List Nat → List Nat → ℚ) (q : List Nat)
    (k : Nat) : (xs.searchOne d q k).length = min k xs.size := by
  have h := min_sum_min k (xs.shards.map (fun sh => sh.entries.length))
  simp only [List.map_map, Function.comp] at h
  simpa [Indexes.searchOne, List.length_take, List.length_insertionSort, fanout_length,
    Indexes.size] using h

theorem searchOne_dist_ascending (xs : Indexes) (d : List Nat → List Nat → ℚ)
    (q : List Nat) (k : Nat) : ((xs.searchOne d q k).map Hit.dist).Sorted (· ≤ ·) := by
  have hs : List.Sorted hitOrder (List.insertionSort hitOrder (fanout d q k 0 xs.shards)) :=
    List.sorted_insertionSort hitOrder (fanout d q k 0 xs.shards)
  have ht : List.Sorted hitOrder (xs.searchOne d q k) :=
    List.Pairwise.sublist (List.take_sublist k _) hs
  exact List.Pairwise.map Hit.dist
    (fun a b hab => by
      rcases hab with h | ⟨h, _⟩
      · exact le_of_lt h
      · exact le_of_eq h) ht

/-- C6: an aggregate search over a batch of queries returns exactly one
result list per query (in query order, each produced by the per-query
merge), and each per-query list has length `min k (total live entries
across all owned shards)` and is ordered by ascending distance. -/
theorem aggregate_batch_search_shape (d : List Nat → List Nat → ℚ) (xs : Indexes)
    (qs : List (List Nat)) (q : List Nat) (k : Nat) :
    (xs.searchBatch d qs k).length = qs.length ∧
    xs.searchBatch d qs k = qs.map (fun q' => xs.searchOne d q' k) ∧
    (xs.searchOne d q k).length = min k xs.size ∧
    ((xs.searchOne d q k).map Hit.dist).Sorted (· ≤ ·) :=
  ⟨List.length_map qs _, rfl, searchOne_length xs d q k, searchOne_dist_ascending xs d q k⟩

/-- Modelled from the spec (sections 4.1 and 4.6): squared Euclidean
distance over decoded numeric vectors. -/
def l2sqDist (v w : List ℚ) : ℚ := (List.zipWith (fun a b => (a - b) ^ 2) v w).sum

theorem l2sqDist_nonneg (v w : List ℚ) : 0 ≤ l2sqDist v w := by
  induction v generalizing w with
  | nil => simp [l2sqDist]
  | cons a v ih =>
    cases w with
    | nil => simp [l2sqDist]
    | cons b w =>
      have hv := ih w
      have hsq : 0 ≤ (a - b) ^ 2 := sq_nonneg _
      simp only [l2sqDist, List.zipWith_cons_cons, List.sum_cons] at *
      linarith

theorem l2sqDist_self (v : List ℚ) : l2sqDist v v = 0 := by
  induction v with
  | nil => rfl
  | cons a v ih => simp only [l2sqDist, List.zipWith_cons_cons, List.sum_cons] at *; simp [ih]

theorem l2sqDist_eq_zero_iff (v w : List ℚ) (h : v.length = w.length) :
    l2sqDist v w = 0 ↔ v = w := by
  induction v generalizing w with
  | nil =>
    cases w with
    | nil => simp [l2sqDist]
    | cons b w => simp at h
  | cons a v ih =>
    cases w with
    | nil => simp at h
    | cons b w =>
      have hlen : v.length = w.length := by simpa using h
      have hv := l2sqDist_nonneg v w
      have hsq : 0 ≤ (a - b) ^ 2 := sq_nonneg _
      constructor
      · intro h0
        simp only [l2sqDist, List.zipWith_cons_cons, List.sum_cons] at h0
        have hz1 : (a - b) ^ 2 = 0 := by
          simp only [l2sqDist] at hv
          linarith
        have hz2 : l2sqDist v w = 0 := by
          simp only [l2sqDist] at *
          linarith
        have hab : a = b := by
          have := pow_eq_zero_iff (n := 2) (by norm_num) |>.mp hz1
          linarith [sub_eq_zero.mp this]
        rw [hab, (ih w hlen).mp hz2]
      · intro heq
        rw [heq]
        exact l2sqDist_self _

/-- Modelled from the spec (section 4.3, `exactSearch`): brute-force scan
over all stored vectors, returning the `k` closest by ascending distance,
ties broken by ascending key; always correct. -/
def exactSearch (corpus : List (Nat × List ℚ)) (q : List ℚ) (k : Nat) : List (Nat × ℚ) :=
  (List.insertionSort hitLE (corpus.map (fun e => (e.1, l2sqDist q e.2)))).take k

/-- C7: an exact (brute-force) search queried with a vector taken from the
corpus itself returns that vector's own key as the top match (at distance
0).  The query position is arbitrary, so this also covers shuffled query
orders. -/
theorem exactSearch_self_top (corpus : List (Nat × List ℚ)) (k0 : Nat) (v0 : List ℚ)
    (k : Nat) (hmem : (k0, v0) ∈ corpus)
    (hlen : ∀ e ∈ corpus, (e.2 : List ℚ).length = v0.length)
    (huniq : ∀ e ∈ corpus, e.2 = v0 → e.1 = k0) (hk : 0 < k) :
    (exactSearch corpus v0 k).head? = some (k0, 0) := by
  have hperm : (List.insertionSort hitLE (corpus.map (fun e => (e.1, l2sqDist v0 e.2)))).Perm
      (corpus.map (fun e => (e.1, l2sqDist v0 e.2))) :=
    List.perm_insertionSort hitLE _
  have hmem0 : (k0, (0 : ℚ)) ∈
      List.insertionSort hitLE (corpus.map (fun e => (e.1, l2sqDist v0 e.2))) := by
    rw [hperm.mem_iff]
    exact List.mem_map.mpr ⟨(k0, v0), hmem, by simp [l2sqDist_self]⟩
  have hsort : (List.insertionSort hitLE
      (corpus.map (fun e => (e.1, l2sqDist v0 e.2)))).Sorted hitLE :=
    List.sorted_insertionSort hitLE _
  cases hcons : List.insertionSort hitLE (corpus.map (fun e => (e.1, l2sqDist v0 e.2))) with
  | nil => rw [hcons] at hmem0; simp at hmem0
  | cons h t =>
    have hh : h ∈ corpus.map (fun e => (e.1, l2sqDist v0 e.2)) := by
      rw [← hperm.mem_iff, hcons]
      exact List.mem_cons_self h t
    obtain ⟨e, he, heq⟩ := List.mem_map.mp hh
    have hsnd : l2sqDist v0 e.2 = h.2 := congrArg Prod.snd heq
    have hnn : 0 ≤ h.2 := hsnd ▸ l2sqDist_nonneg v0 e.2
    rw [hcons] at hmem0 hsort
    have hle : hitLE h (k0, 0) := by
      rcases List.mem_cons.mp hmem0 with hEq | hIn
      · rw [hEq]
        exact Or.inr ⟨rfl, le_rfl⟩
      · exact (List.sorted_cons.mp hsort).1 _ hIn
    have hz : h.2 = 0 := by
      rcases hle with hlt | ⟨hEq, _⟩
      · exact absurd hlt (not_lt.mpr hnn)
      · exact hEq
    have hev : e.2 = v0 := by
      have h0 : l2sqDist v0 e.2 = 0 := by rw [hsnd, hz]
      have := (l2sqDist_eq_zero_iff v0 e.2 (hlen e he).symm).mp h0
      exact this.symm
    have hek : e.1 = k0 := huniq e he hev
    have hfinal : h = (k0, 0) := by
      rw [← heq, hek, hev, l2sqDist_self]
    show ((List.insertionSort hitLE (corpus.map (fun e => (e.1, l2sqDist v0 e.2)))).take k).head? =
      some (k0, 0)
    rw [hcons]
    cases k with
    | zero => omega
    | succ k' => simpa using hfinal

/-- Witness for C7 at a concrete two-entry corpus queried with its first
vector. -/
theorem exactSearch_self_top_witness :
    ((0 : Nat), ([0, 0] : List ℚ)) ∈ [((0 : Nat), ([0, 0] : List ℚ)), (1, [3, 4])] ∧
    (∀ e ∈ [((0 : Nat), ([0, 0] : List ℚ)), (1, [3, 4])], (e.2 : List ℚ).length = 2) ∧
    (∀ e ∈ [((0 : Nat), ([0, 0] : List ℚ)), (1, [3, 4])], e.2 = [0, 0] → e.1 = 0) ∧
    (exactSearch [((0 : Nat), ([0, 0] : List ℚ)), (1, [3, 4])] [0, 0] 1).head? =
      some (0, 0) := by
  refine ⟨by decide, by decide, by decide, ?_⟩
  exact exactSearch_self_top [((0 : Nat), ([0, 0] : List ℚ)), (1, [3, 4])] 0 [0, 0] 1
    (by decide) (by decide) (by decide) (by decide)

/-- Best (index, distance) among the centroid at position `i` and the
remaining centroids, for vector `v`; earlier centroids win ties. -/
def nearestAux (v : List ℚ) (c : List ℚ) (i : Nat) : List (List ℚ) → Nat × ℚ
  | [] => (i, l2sqDist v c)
  | c' :: rest =>
    let best := nearestAux v c' (i + 1) rest
    if l2sqDist v c ≤ best.2 then (i, l2sqDist v c) else best

/-- Modelled from the spec (section 4.6): assign a vector to its nearest
centroid by squared Euclidean distance. -/
def nearestCentroid (cs : List (List ℚ)) (v : List ℚ) : Nat :=
  match cs with
  | [] => 0
  | c :: rest => (nearestAux v c 0 rest).1

/-- Assignment phase of one k-means iteration. -/
def assignStep (cs : List (List ℚ)) (vs : List (List ℚ)) : List Nat :=
  vs.map (nearestCentroid cs)

/-- Vectors currently assigned to cluster `j`. -/
def clusterMembers (vs : List (List ℚ)) (asg : List Nat) (j : Nat) : List (List ℚ) :=
  (List.zip vs asg).filterMap (fun p => if p.2 = j then some p.1 else none)

/-- Pointwise sum of two vectors. -/
def vecAdd (v w : List ℚ) : List ℚ := List.zipWith (· + ·) v w

/-- Mean of a cluster's members; a degenerate empty cluster is re-seeded
with the fallback centroid rather than left centroid-less (spec,
section 4.6). -/
def meanVec (ms : List (List ℚ)) (fallback : List ℚ) : List ℚ :=
  match ms with
  | [] => fallback
  | m :: rest => (rest.foldl vecAdd m).map (fun x => x / (rest.length + 1 : ℚ))

/-- Centroid-recomputation phase of one k-means iteration. -/
def updateStep (vs : List (List ℚ)) (asg : List Nat) (cs : List (List ℚ)) : List (List ℚ) :=
  (List.range cs.length).map (fun j => meanVec (clusterMembers vs asg j) (cs.getD j []))

/-- Modelled from the spec (section 4.6): repeat assignment and centroid
recomputation until the centroids stabilize or the iteration cap runs
out. -/
def kmeansLoop (vs : List (List ℚ)) : Nat → List (List ℚ) → List Nat × List (List ℚ)
  | 0, cs => (assignStep cs vs, cs)
  | fuel + 1, cs =>
    let cs' := updateStep vs (assignStep cs vs) cs
    if cs' = cs then (assignStep cs vs, cs)
    else kmeansLoop vs fuel cs'

/-- Iteration cap of the clustering utility. -/
def kmeansIterationCap : Nat := 300

/-- Modelled from the spec (section 4.6, `kmeans`): initialize `k`
centroids sampled from the input, refine iteratively, and return the
assignments, the per-vector distances to their assigned centroids, and the
final centroids. -/
def kmeans (vs : List (List ℚ)) (k : Nat) : List Nat × List ℚ × List (List ℚ) :=
  let r := kmeansLoop vs kmeansIterationCap (vs.take k)
  (r.1, (List.zip vs r.1).map (fun p => l2sqDist p.1 (r.2.getD p.2 [])), r.2)

theorem nearestAux_fst_le (v : List ℚ) (rest : List (List ℚ)) :
    ∀ (c : List ℚ) (i : Nat), (nearestAux v c i rest).1 ≤ i + rest.length := by
  induction rest with
  | nil => intro c i; simp [nearestAux]
  | cons c' rest ih =>
    intro c i
    simp only [nearestAux, List.length_cons]
    split
    · omega
    · have := ih c' (i + 1)
      omega

theorem nearestCentroid_lt (cs : List (List ℚ)) (v : List ℚ) (h : cs ≠ []) :
    nearestCentroid cs v < cs.length := by
  cases cs with
  | nil => exact absurd rfl h
  | cons c rest =>
    simp only [nearestCentroid, List.length_cons]
    have := nearestAux_fst_le v rest c 0
    omega

theorem assignStep_spec (cs : List (List ℚ)) (vs : List (List ℚ)) (h : cs ≠ []) :
    (assignStep cs vs).length = vs.length ∧ ∀ a ∈ assignStep cs vs, a < cs.length := by
  refine ⟨List.length_map vs _, ?_⟩
  intro a ha
  obtain ⟨v, _, rfl⟩ := List.mem_map.mp ha
  exact nearestCentroid_lt cs v h

theorem updateStep_length (vs : List (List ℚ)) (asg : List Nat) (cs : List (List ℚ)) :
    (updateStep vs asg cs).length = cs.length := by
  simp [updateStep]

theorem kmeansLoop_assignments (vs : List (List ℚ)) (k : Nat) (hk : 0 < k) :
    ∀ (fuel : Nat) (cs : List (List ℚ)), cs.length = k →
      (kmeansLoop vs fuel cs).1.length = vs.length ∧
        ∀ a ∈ (kmeansLoop vs fuel cs).1, a < k := by
  intro fuel
  induction fuel with
  | zero =>
    intro cs hcs
    have hne : cs ≠ [] := by
      intro hnil
      rw [hnil] at hcs
      simp at hcs
      omega
    have := assignStep_spec cs vs hne
    simp only [kmeansLoop]
    exact ⟨this.1, fun a ha => hcs ▸ this.2 a ha⟩
  | succ fuel ih =>
    intro cs hcs
    have hne : cs ≠ [] := by
      intro hnil
      rw [hnil] at hcs
      simp at hcs
      omega
    simp only [kmeansLoop]
    split
    · have := assignStep_spec cs vs hne
      exact ⟨this.1, fun a ha => hcs ▸ this.2 a ha⟩
    · exact ih (updateStep vs (assignStep cs vs) cs) (by rw [updateStep_length, hcs])

/-- C8: for every input of `n` vectors and every cluster count `k` with
`0 < k ≤ n`, `kmeans` returns exactly one cluster assignment per input
vector (the assignment list is positional, one id per vector) and every
assigned cluster id lies in the half-open range `[0, k)`. -/
theorem kmeans_assignment_range (vs : List (List ℚ)) (k : Nat) (hk : 0 < k)
    (hkn : k ≤ vs.length) :
    (kmeans vs k).1.length = vs.length ∧ ∀ a ∈ (kmeans vs k).1, a < k := by
  have hlen : (vs.take k).length = k := by
    rw [List.length_take]
    omega
  have h := kmeansLoop_assignments vs k hk kmeansIterationCap (vs.take k) hlen
  exact h

/-- Witness for C8 at three one-dimensional vectors and two clusters. -/
theorem kmeans_assignment_range_witness :
    (0 : Nat) < 2 ∧ 2 ≤ ([[0], [1], [2]] : List (List ℚ)).length ∧
    (kmeans ([[0], [1], [2]] : List (List ℚ)) 2).1.length =
      ([[0], [1], [2]] : List (List ℚ)).length := by
  refine ⟨by decide, by decide, ?_⟩
  exact (kmeans_assignment_range ([[0], [1], [2]] : List (List ℚ)) 2 (by decide) (by decide)).1

/-- Modelled from the spec (section 6, matrix file formats): the element
type tag of a serialized dense matrix (32/64-bit float, 32-bit integer,
8-bit integer), covering the `.fbin` and `.ibin` companions. -/
inductive ElemKind where
  | f32
  | f64
  | i32
  | i8
  deriving DecidableEq

/-- Enum id of an element kind in a matrix file header. -/
def elemTag : ElemKind → Int
  | .f32 => 0
  | .f64 => 1
  | .i32 => 2
  | .i8 => 3

/-- Decoder for the element kind id. -/
def decodeElemTag : Int → Option ElemKind
  | 0 => some .f32
  | 1 => some .f64
  | 2 => some .i32
  | 3 => some .i8
  | _ => none

theorem decodeElemTag_elemTag (e : ElemKind) : decodeElemTag (elemTag e) = some e := by
  cases e <;> rfl

/-- Modelled from the spec (section 6): a dense row-major matrix with a
row count, a column count, an element type and its elements in row-major
order.  Element values are modelled as integers (the raw numeric content
of each element); `data` lists exactly `rows * cols` of them. -/
structure DenseMatrix where
  rows : Nat
  cols : Nat
  elem : ElemKind
  data : List Int
  deriving DecidableEq

/-- Row-major well-formedness: the flat data holds one element per cell. -/
def DenseMatrix.wf (m : DenseMatrix) : Prop := m.data.length = m.rows * m.cols

/-- Modelled from the spec (section 6, `save_matrix`): serialize a dense
matrix as a small header (row count, column count, element type tag)
followed by the raw row-major elements. -/
def saveMatrix (m : DenseMatrix) : List Int :=
  [(m.rows : Int), (m.cols : Int), elemTag m.elem] ++ m.data

/-- Modelled from the spec (section 6, `load_matrix`): parse the header,
then take the `rows * cols` row-major elements; fail on an unknown element
tag or a malformed body. -/
def loadMatrix (file : List Int) : Option DenseMatrix :=
  match file with
  | r :: c :: t :: rest =>
    if 0 ≤ r ∧ 0 ≤ c then
      match decodeElemTag t with
      | some ek =>
        if rest.length = r.toNat * c.toNat then some ⟨r.toNat, c.toNat, ek, rest⟩
        else none
      | none => none
    else none
  | _ => none

/-- C9: saving a well-formed dense row-major matrix of any supported
element type and any row/column counts to the matrix file format, then
loading it back, reproduces the original matrix exactly. -/
theorem matrix_save_load_roundtrip (m : DenseMatrix) (hwf : m.wf) :
    loadMatrix (saveMatrix m) = some m := by
  obtain ⟨rows, cols, ek, data⟩ := m
  simp only [DenseMatrix.wf] at hwf
  simp only [saveMatrix, List.cons_append, List.nil_append, loadMatrix,
    decodeElemTag_elemTag]
  rw [if_pos ⟨Int.natCast_nonneg rows, Int.natCast_nonneg cols⟩,
    if_pos (by simpa using hwf)]
  simp

/-- Witness for C9 at a concrete 2-by-2 integer matrix. -/
theorem matrix_save_load_roundtrip_witness :
    (DenseMatrix.mk 2 2 .i32 [3, -1, 0, 7]).wf ∧
    loadMatrix (saveMatrix (DenseMatrix.mk 2 2 .i32 [3, -1, 0, 7])) =
      some (DenseMatrix.mk 2 2 .i32 [3, -1, 0, 7]) :=
  ⟨rfl, matrix_save_load_roundtrip _ rfl⟩

/-- Modelled from the test surface (`test_tooling.py`, `Match`): one
search result, a key paired with a distance. -/
structure SearchMatch where
  key : Nat
  distance : ℚ
  deriving DecidableEq

/-- Modelled from the test surface (`test_tooling.py`, `Matches`): the
ranked results of one query, as parallel key and distance arrays plus the
visited/computed diagnostic counters (spec, section 6). -/
structure Matches where
  keys : List Nat
  distances : List ℚ
  visitedMembers : Nat
  computedDistances : Nat
  deriving DecidableEq

/-- Number of matches. -/
def Matches.size (m : Matches) : Nat := m.keys.length

/-- Indexing a `Matches` at position `i` yields the i-th (key, distance)
pair as a `SearchMatch`. -/
def Matches.getAt (m : Matches) (i : Nat) : SearchMatch :=
  ⟨m.keys.getD i 0, m.distances.getD i 0⟩

/-- The `to_list` conversion: the (key, distance) pairs in rank order. -/
def Matches.toPairs (m : Matches) : List (Nat × ℚ) := List.zip m.keys m.distances

/-- Modelled from the test surface (`test_tooling.py`, `BatchMatches`):
per-query result arrays over a batch of queries. -/
structure BatchMatches where
  keys : List (List Nat)
  distances : List (List ℚ)
  counts : List Nat
  visitedMembers : Nat
  computedDistances : Nat
  deriving DecidableEq

/-- Number of queries in the batch. -/
def BatchMatches.size (b : BatchMatches) : Nat := b.keys.length

/-- Indexing a `BatchMatches` at query position `i` yields that query's
`Matches`. -/
def BatchMatches.getAt (b : BatchMatches) (i : Nat) : Matches :=
  ⟨b.keys.getD i [], b.distances.getD i [], b.visitedMembers, b.computedDistances⟩

/-- The batch `to_list` conversion: per-query (key, distance) pairs
flattened in query order. -/
def BatchMatches.toPairs (b : BatchMatches) : List (Nat × ℚ) :=
  ((List.zip b.keys b.distances).map (fun p => List.zip p.1 p.2)).flatten

theorem zip_getD (ks : List Nat) (ds : List ℚ) (i n : Nat) (hk : ks.length = n)
    (hd : ds.length = n) (hi : i < n) :
    (List.zip ks ds).getD i (0, 0) = (ks.getD i 0, ds.getD i 0) := by
  induction ks generalizing ds i n with
  | nil =>
    simp only [List.length_nil] at hk
    omega
  | cons a ks ih =>
    cases ds with
    | nil =>
      simp only [List.length_nil] at hd
      omega
    | cons b ds =>
      cases i with
      | zero => rfl
      | succ i =>
        simp only [List.zip_cons_cons, List.getD_cons_succ]
        refine ih ds i ks.length rfl ?_ ?_
        · simp only [List.length_cons] at hk hd
          omega
        · simp only [List.length_cons] at hk
          omega

/-- C10: a `Matches` built from `n` keys and `n` distances has size `n`,
indexing at `i < n` yields the pair of the i-th key and i-th distance, and
its list conversion is the in-order zip of keys and distances; a
`BatchMatches` over `m` queries has size `m`, indexing yields the
per-query `Matches`, and its list conversion flattens the per-query pairs
in query order. -/
theorem matches_api_shape (ks : List Nat) (ds : List ℚ) (v c n : Nat)
    (bks : List (List Nat)) (bds : List (List ℚ)) (cnts : List Nat) (mq : Nat)
    (hk : ks.length = n) (hd : ds.length = n) (hbk : bks.length = mq) :
    (Matches.mk ks ds v c).size = n ∧
    (∀ i, i < n → (Matches.mk ks ds v c).getAt i = ⟨ks.getD i 0, ds.getD i 0⟩) ∧
    (Matches.mk ks ds v c).toPairs = List.zip ks ds ∧
    (∀ i, i < n → (Matches.mk ks ds v c).toPairs.getD i (0, 0) =
      (ks.getD i 0, ds.getD i 0)) ∧
    (BatchMatches.mk bks bds cnts v c).size = mq ∧
    (∀ i, i < mq → (BatchMatches.mk bks bds cnts v c).getAt i =
      Matches.mk (bks.getD i []) (bds.getD i []) v c) ∧
    (BatchMatches.mk bks bds cnts v c).toPairs =
      ((List.zip bks bds).map (fun p => List.zip p.1 p.2)).flatten := by
  refine ⟨hk, fun i _ => rfl, rfl, ?_, hbk, fun i _ => rfl, rfl⟩
  intro i hi
  exact zip_getD ks ds i n hk hd hi

/-- Witness for C10 at the concrete values of
`test_matches_creation_and_methods` and
`test_batch_matches_creation_and_methods`. -/
theorem matches_api_shape_witness :
    ([1, 2] : List Nat).length = 2 ∧ ([1 / 2, 3 / 5] : List ℚ).length = 2 ∧
    ([[1, 2], [3, 4]] : List (List Nat)).length = 2 ∧
    (Matches.mk [1, 2] [1 / 2, 3 / 5] 2 2).size = 2 ∧
    (Matches.mk [1, 2] [1 / 2, 3 / 5] 2 2).toPairs = [(1, 1 / 2), (2, 3 / 5)] ∧
    (BatchMatches.mk [[1, 2], [3, 4]] [[1 / 2, 3 / 5], [7 / 10, 4 / 5]] [2, 2] 2 2).size = 2 ∧
    (BatchMatches.mk [[1, 2], [3, 4]] [[1 / 2, 3 / 5], [7 / 10, 4 / 5]] [2, 2] 2 2).toPairs =
      [(1, 1 / 2), (2, 3 / 5), (3, 7 / 10), (4, 4 / 5)] := by
  have h := matches_api_shape [1, 2] [1 / 2, 3 / 5] 2 2 2
    [[1, 2], [3, 4]] [[1 / 2, 3 / 5], [7 / 10, 4 / 5]] [2, 2] 2 rfl rfl rfl
  refine ⟨rfl, rfl, rfl, h.1, ?_, h.2.2.2.2.1, ?_⟩
  · rw [h.2.2.1]
    rfl
  · rw [h.2.2.2.2.2.2]
    rfl

end USearch
